import Mathlib

/-!
A verification development for the aagent coding-agent core: shallow Lean
embeddings of the tool layer (edit, replace_lines, insert_lines, read, grep,
parallel dispatch), the agent loop with its resume repair, and the scheduler's
cron next-fire computation, together with theorems about their behaviour.

File contents are modelled as lists of characters; the file system entry for a
single target file is an Option over such contents (none = missing file).
-/

/-- Result of a tool execution, translated from internal/tools/manager.go
(type Result: success flag, output shown to the model, error populated on
failure). -/
structure ToolResultR where
  success : Bool
  output : String
  error : String
deriving DecidableEq

/-- Whether the pattern list is a leading segment of the subject list.  Used to
translate the scanning loops behind Go strings.Count / strings.Replace. -/
def headMatches : List Char → List Char → Bool
  | [], _ => true
  | _ :: _, [] => false
  | a :: as, b :: bs => a == b && headMatches as bs

/-- Scanning loop of Go strings.Count for a non-empty pattern: counts
non-overlapping occurrences left to right, skipping past each match.  The
fuel argument, initialised to the subject length, bounds the number of loop
iterations (each iteration consumes at least one character); it makes the
recursion structural. -/
def countLoop (p : Char) (ps : List Char) : Nat → List Char → Nat
  | _, [] => 0
  | 0, _ :: _ => 0
  | fuel + 1, c :: rest =>
    if headMatches (p :: ps) (c :: rest) then 1 + countLoop p ps fuel (rest.drop ps.length)
    else countLoop p ps fuel rest

/-- Go strings.Count: for an empty pattern it returns one more than the number
of characters; otherwise the number of non-overlapping occurrences. -/
def countOccur (s pat : List Char) : Nat :=
  match pat with
  | [] => s.length + 1
  | p :: ps => countLoop p ps s.length s

/-- Scanning loop of Go strings.Replace with n = 1 for a non-empty pattern:
replaces the leftmost occurrence, if any. -/
def replFirstAux (p : Char) (ps new : List Char) : List Char → List Char
  | [] => []
  | c :: rest =>
    if headMatches (p :: ps) (c :: rest) then new ++ rest.drop ps.length
    else c :: replFirstAux p ps new rest

/-- Go strings.Replace with n = 1.  An empty pattern matches at the start, so
the replacement is prepended. -/
def replaceFirst (s pat new : List Char) : List Char :=
  match pat with
  | [] => new ++ s
  | p :: ps => replFirstAux p ps new s

/-- Scanning loop of Go strings.ReplaceAll for a non-empty pattern: replaces
every non-overlapping occurrence left to right, with the same structural fuel
as the counting loop. -/
def replAllLoop (p : Char) (ps new : List Char) : Nat → List Char → List Char
  | _, [] => []
  | 0, l => l
  | fuel + 1, c :: rest =>
    if headMatches (p :: ps) (c :: rest) then new ++ replAllLoop p ps new fuel (rest.drop ps.length)
    else c :: replAllLoop p ps new fuel rest

/-- Go strings.ReplaceAll.  An empty pattern matches at every character
boundary, so the replacement is interleaved before every character and at the
end of the subject. -/
def replaceAllGo (s pat new : List Char) : List Char :=
  match pat with
  | [] => new ++ s.foldr (fun c acc => c :: (new ++ acc)) []
  | p :: ps => replAllLoop p ps new s.length s

/-- Parameters of the edit tool (internal/tools/write.go, EditParams). -/
structure EditParams where
  path : String
  oldString : List Char
  newString : List Char
  replaceAll : Bool

/-- Translation of EditTool.Execute (internal/tools/write.go lines 164-235),
acting on the target file's content (none = file missing).  Returns the tool
result together with the file content after the call. -/
def editExecute (p : EditParams) (file : Option (List Char)) :
    ToolResultR × Option (List Char) :=
  if p.path = "" then (⟨false, "", "path is required"⟩, file)
  else if p.oldString = [] then (⟨false, "", "old_string is required"⟩, file)
  else if p.oldString = p.newString then
    (⟨false, "", "old_string and new_string must be different"⟩, file)
  else
    match file with
    | none => (⟨false, "", "file not found: " ++ p.path⟩, none)
    | some content =>
      let count := countOccur content p.oldString
      if count = 0 then (⟨false, "", "old_string not found in file"⟩, some content)
      else if 1 < count ∧ ¬ p.replaceAll then
        (⟨false, "",
          "old_string found " ++ Nat.repr count ++
            " times - provide more context to match uniquely, or set replace_all to true"⟩,
          some content)
      else
        let newContent :=
          if p.replaceAll then replaceAllGo content p.oldString p.newString
          else replaceFirst content p.oldString p.newString
        if p.replaceAll ∧ 1 < count then
          (⟨true, "Replaced " ++ Nat.repr count ++ " occurrences in " ++ p.path, ""⟩,
            some newContent)
        else (⟨true, "Edited " ++ p.path, ""⟩, some newContent)

/-- Go strings.Split with a single-newline separator (as called by splitLines
after trimming the trailing newline): the empty subject yields one empty part,
and every newline starts a fresh part. -/
def splitOnNl : List Char → List (List Char)
  | [] => [[]]
  | c :: rest =>
    if c = '\n' then [] :: splitOnNl rest
    else
      match splitOnNl rest with
      | [] => [[c]]
      | l :: ls => (c :: l) :: ls

/-- Go strings.Join with a newline separator. -/
def joinNl : List (List Char) → List Char
  | [] => []
  | [l] => l
  | l :: l2 :: ls => l ++ '\n' :: joinNl (l2 :: ls)

/-- Translation of splitLines (src/unnamed/part_007 lines 128-135): empty
content has no lines; otherwise one trailing newline is trimmed and the rest
split on newlines, remembering whether the trailing newline was present. -/
def splitLines (s : List Char) : List (List Char) × Bool :=
  if s = [] then ([], false)
  else
    let hadT := s.getLast? == some '\n'
    (splitOnNl (if hadT then s.dropLast else s), hadT)

/-- Translation of shouldKeepTrailingNewline (src/unnamed/part_007 lines
137-145). -/
def shouldKeepTrailingNewline (originalTrailing replacementTrailing : Bool)
    (lineCount : Nat) : Bool :=
  if replacementTrailing then true
  else if originalTrailing && decide (0 < lineCount) then true
  else false

/-- Parameters of the replace_lines tool (src/unnamed/part_007,
ReplaceLinesParams); start_line and end_line are 1-based inclusive Go ints. -/
structure ReplaceLinesParams where
  path : String
  startLine : Int
  endLine : Int
  content : List Char

/-- The new line list built by ReplaceLinesTool.Execute: the lines before the
range, then the replacement lines, then the lines after the range. -/
def replaceLinesNewLines (lines replacement : List (List Char)) (s e : Nat) :
    List (List Char) :=
  lines.take (s - 1) ++ replacement ++ lines.drop e

/-- Translation of ReplaceLinesTool.Execute (src/unnamed/part_007 lines
65-126), acting on the target file's content. -/
def replaceLinesExecute (p : ReplaceLinesParams) (file : Option (List Char)) :
    ToolResultR × Option (List Char) :=
  if p.path = "" then (⟨false, "", "path is required"⟩, file)
  else if p.startLine ≤ 0 ∨ p.endLine ≤ 0 then
    (⟨false, "", "start_line and end_line must be >= 1"⟩, file)
  else if p.endLine < p.startLine then
    (⟨false, "", "start_line must be <= end_line"⟩, file)
  else
    match file with
    | none => (⟨false, "", "file not found: " ++ p.path⟩, none)
    | some content =>
      let sl := splitLines content
      if ((sl.1.length : Int) < p.endLine) then
        (⟨false, "",
          "line range " ++ toString p.startLine ++ "-" ++ toString p.endLine ++
            " exceeds file length (" ++ toString sl.1.length ++ " lines)"⟩,
          some content)
      else
        let rl := splitLines p.content
        let newLines := replaceLinesNewLines sl.1 rl.1 p.startLine.toNat p.endLine.toNat
        let newContent :=
          joinNl newLines ++
            (if shouldKeepTrailingNewline sl.2 rl.2 newLines.length then ['\n'] else [])
        (⟨true,
          "Replaced lines " ++ toString p.startLine ++ "-" ++ toString p.endLine ++
            " in " ++ p.path, ""⟩,
          some newContent)

/-- Parameters of the insert_lines tool (src/unnamed/part_010,
InsertLinesParams); after_line 0 prepends and a negative value appends. -/
structure InsertLinesParams where
  path : String
  afterLine : Int
  content : List Char

/-- Translation of InsertLinesTool.Execute (src/unnamed/part_010 lines
61-134), acting on the target file's content. -/
def insertLinesExecute (p : InsertLinesParams) (file : Option (List Char)) :
    ToolResultR × Option (List Char) :=
  if p.path = "" then (⟨false, "", "path is required"⟩, file)
  else
    match file with
    | none => (⟨false, "", "file not found: " ++ p.path⟩, none)
    | some content =>
      let sl := splitLines content
      let il := splitLines p.content
      let insertAfter : Int := if p.afterLine < 0 then (sl.1.length : Int) else p.afterLine
      if ((sl.1.length : Int) < insertAfter) then
        (⟨false, "",
          "after_line " ++ toString insertAfter ++ " exceeds file length (" ++
            toString sl.1.length ++ " lines)"⟩,
          some content)
      else
        let ia := insertAfter.toNat
        let newLines := sl.1.take ia ++ il.1 ++ sl.1.drop ia
        let newContent :=
          joinNl newLines ++ (if sl.2 || decide (0 < newLines.length) then ['\n'] else [])
        if ia = 0 then
          (⟨true, "Inserted " ++ toString il.1.length ++ " line(s) at beginning of " ++ p.path,
            ""⟩, some newContent)
        else if ia = sl.1.length then
          (⟨true, "Appended " ++ toString il.1.length ++ " line(s) to end of " ++ p.path, ""⟩,
            some newContent)
        else
          (⟨true, "Inserted " ++ toString il.1.length ++ " line(s) after line " ++ toString ia ++
            " in " ++ p.path, ""⟩, some newContent)

/-- A tool call as exchanged with the model and stored in the session
(llm.ToolCall and session.ToolCall carry the same id / name / input fields;
the agent copies them field-for-field, part_014 lines 140-147). -/
structure ToolCallR where
  id : String
  name : String
  input : String
deriving DecidableEq

/-- A tool result as exchanged with the model and stored in the session
(llm.ToolResult and session.ToolResult carry the same fields, copied
field-for-field in part_014 lines 159-166). -/
structure ToolResultMsg where
  toolCallID : String
  content : String
  isError : Bool
deriving DecidableEq

/-- Outcome of Manager.Execute for one call: a fatal error (tool not found or
infrastructural failure) or a returned tool Result. -/
inductive ExecOutcome where
  | fatal (e : String)
  | returned (r : ToolResultR)
deriving DecidableEq

/-- The per-call goroutine body of Manager.ExecuteParallel (manager.go lines
83-103): build the llm.ToolResult for one call from its Execute outcome. -/
def buildToolResult (tc : ToolCallR) (o : ExecOutcome) : ToolResultMsg :=
  match o with
  | .fatal e => ⟨tc.id, "Error: " ++ e, true⟩
  | .returned r =>
    if r.success then ⟨tc.id, r.output, false⟩
    else ⟨tc.id, "Error: " ++ r.error, true⟩

/-- Translation of Manager.ExecuteParallel (manager.go lines 77-108).  Each
goroutine writes the result of call i into slot i of the pre-sized result
slice, so whatever the completion order, the final slice is the map of the
per-call body over the batch in call order; the underlying Execute call is
abstracted as an oracle from the call to its outcome. -/
def executeParallel (exec : ToolCallR → ExecOutcome) (calls : List ToolCallR) :
    List ToolResultMsg :=
  calls.map (fun tc => buildToolResult tc (exec tc))

/-- Modelled from the spec: a session message (spec section 3 - role, content,
the assistant's tool-call list, the tool message's result list; the timestamp
is not consulted by the embedded code paths).  The session package itself is
not among the provided sources; only its callers are. -/
structure MessageR where
  role : String
  content : String
  toolCalls : List ToolCallR
  toolResults : List ToolResultMsg
deriving DecidableEq

/-- Modelled from the spec: a session as the agent loop uses it - status and
the ordered message sequence (spec section 3). -/
structure SessionR where
  status : String
  messages : List MessageR
deriving DecidableEq

/-- Modelled from the spec: append an assistant message carrying the content
and tool-call list (spec section 4.3 step 6). -/
def addAssistantMessage (s : SessionR) (content : String) (tcs : List ToolCallR) : SessionR :=
  { s with messages := s.messages ++ [⟨"assistant", content, tcs, []⟩] }

/-- Modelled from the spec: append one tool message carrying the aligned
tool-result list (spec section 4.3 step 6). -/
def addToolResultMsg (s : SessionR) (results : List ToolResultMsg) : SessionR :=
  { s with messages := s.messages ++ [⟨"tool", "", [], results⟩] }

/-- Modelled from the spec: set the session status. -/
def setStatus (s : SessionR) (st : String) : SessionR :=
  { s with status := st }

/-- The index-walking loop of Agent.cleanupIncompleteToolCalls (part_014 lines
269-287): the first argument is one past the index under examination; an
assistant message with tool calls whose successor slot is not a tool message
is removed in place. -/
def cleanupGo : Nat → List MessageR → List MessageR
  | 0, msgs => msgs
  | i + 1, msgs =>
    let msg := msgs.getD i ⟨"", "", [], []⟩
    if msg.role = "assistant" ∧ msg.toolCalls ≠ [] then
      if i + 1 < msgs.length ∧ (msgs.getD (i + 1) ⟨"", "", [], []⟩).role = "tool" then
        cleanupGo i msgs
      else cleanupGo i (msgs.take i ++ msgs.drop (i + 1))
    else cleanupGo i msgs

/-- Translation of Agent.cleanupIncompleteToolCalls (part_014 lines 263-288):
scan from the last message downward, removing every assistant message with a
non-empty tool-call list that is not followed by a tool message. -/
def cleanupIncompleteToolCalls (msgs : List MessageR) : List MessageR :=
  if msgs = [] then msgs else cleanupGo msgs.length msgs

/-- The repair described by the spec (section 4.3): remove every assistant
message whose tool-call list is non-empty and whose immediate successor in
the original history is not a tool message; keep everything else. -/
def repairDangling : List MessageR → List MessageR
  | [] => []
  | m :: rest =>
    if m.role = "assistant" ∧ m.toolCalls ≠ [] ∧
        rest.head?.map MessageR.role ≠ some "tool" then
      repairDangling rest
    else m :: repairDangling rest

/-- One right-fold step equivalent to the downward scan of the cleanup loop:
decide the fate of a message given the already-processed suffix. -/
def repairStep (m : MessageR) (acc : List MessageR) : List MessageR :=
  if m.role = "assistant" ∧ m.toolCalls ≠ [] ∧
      acc.head?.map MessageR.role ≠ some "tool" then
    acc
  else m :: acc

/-- The invariant of spec section 3: every assistant message with a non-empty
tool-call list is immediately followed by a tool message. -/
def danglingFreeB : List MessageR → Bool
  | [] => true
  | m :: rest =>
    (if m.role = "assistant" ∧ m.toolCalls ≠ [] then
      rest.head?.map MessageR.role == some "tool"
    else true) && danglingFreeB rest

/-- A chat response as the loop consumes it (llm.ChatResponse: content, tool
calls, token usage). -/
structure ChatResponseR where
  content : String
  toolCalls : List ToolCallR
  inputTokens : Nat
  outputTokens : Nat
deriving DecidableEq

/-- Accumulated token usage (llm.TokenUsage). -/
structure TokenUsageR where
  inputTokens : Nat
  outputTokens : Nat
deriving DecidableEq

/-- The environment of one agent run: the step bound, the cancellation state
observed at the top of each iteration, the model client's outcome per step,
and the tool executor oracle. -/
structure LoopEnv where
  maxSteps : Nat
  cancelled : Nat → Bool
  llm : Nat → Except String ChatResponseR
  exec : ToolCallR → ExecOutcome

/-- What a run of the loop produces: the returned content or error, the final
in-memory session, every session snapshot passed to sessionManager.Save in
order, and the accumulated usage. -/
structure LoopOutcome where
  result : Except String String
  finalSession : SessionR
  saves : List SessionR
  usage : TokenUsageR

/-- The downward index scan of Agent.getLastAssistantContent (part_014 lines
252-259); the argument is one past the index under examination. -/
def getLastGo (msgs : List MessageR) : Nat → String
  | 0 => ""
  | i + 1 =>
    let m := msgs.getD i ⟨"", "", [], []⟩
    if m.role = "assistant" ∧ m.content ≠ "" then m.content else getLastGo msgs i

/-- Translation of Agent.getLastAssistantContent: content of the last
assistant message with non-empty content, or the empty string. -/
def getLastAssistantContent (sess : SessionR) : String :=
  getLastGo sess.messages sess.messages.length

/-- The same value characterised on the history directly: the content of the
most recent assistant message having non-empty content, or empty. -/
def lastNonEmptyAssistantContent (msgs : List MessageR) : String :=
  ((msgs.reverse.find? (fun m => m.role == "assistant" && m.content != "")).map
    MessageR.content).getD ""

/-- Translation of the body of Agent.loop (part_014 lines 94-180).  The Go
loop checks cancellation, then whether step ≥ maxSteps, then increments step
and calls the model; remaining = maxSteps − step makes the recursion
structural while step still indexes the oracles.  Every sessionManager.Save
call appends its snapshot to saves. -/
def loopGo (env : LoopEnv) : Nat → Nat → SessionR → List SessionR → TokenUsageR → LoopOutcome
  | 0, step, sess, saves, usage =>
    if env.cancelled step then
      let s2 := setStatus sess "paused"
      ⟨Except.error "context cancelled", s2, saves ++ [s2], usage⟩
    else
      let s2 := setStatus sess "completed"
      ⟨Except.ok (getLastAssistantContent s2), s2, saves ++ [s2], usage⟩
  | r + 1, step, sess, saves, usage =>
    if env.cancelled step then
      let s2 := setStatus sess "paused"
      ⟨Except.error "context cancelled", s2, saves ++ [s2], usage⟩
    else
      match env.llm (step + 1) with
      | Except.error e =>
        let s2 := setStatus sess "failed"
        ⟨Except.error ("LLM error: " ++ e), s2, saves ++ [s2], usage⟩
      | Except.ok resp =>
        let usage2 : TokenUsageR :=
          ⟨usage.inputTokens + resp.inputTokens, usage.outputTokens + resp.outputTokens⟩
        if resp.toolCalls = [] then
          let s2 := setStatus (addAssistantMessage sess resp.content []) "completed"
          ⟨Except.ok resp.content, s2, saves ++ [s2], usage2⟩
        else
          let s1 := addAssistantMessage sess resp.content resp.toolCalls
          let s2 := addToolResultMsg s1 (executeParallel env.exec resp.toolCalls)
          loopGo env r (step + 1) s2 (saves ++ [s2]) usage2

/-- Translation of Agent.loop from its entry (part_014 lines 87-93): clean up
incomplete tool calls, then run the step loop from step 0 with the full
budget. -/
def loopRun (env : LoopEnv) (sess : SessionR) : LoopOutcome :=
  loopGo env env.maxSteps 0
    { sess with messages := cleanupIncompleteToolCalls sess.messages } [] ⟨0, 0⟩

/-- A file system entry as the read tool classifies it: missing, a directory,
or a regular file with content. -/
inductive FsEntry where
  | missing
  | directory
  | file (content : List Char)

/-- Parameters of the read tool (src/unnamed/part_007, ReadParams): 0-based
offset, line limit, and the 1-based inclusive start_line/end_line range. -/
structure ReadParams where
  path : String
  offset : Int
  limit : Int
  startLine : Int
  endLine : Int

/-- Decimal digits right-aligned in a six-column field, as Go fmt %6d. -/
def padNum6 (n : Nat) : List Char :=
  let d := Nat.toDigits 10 n
  List.replicate (6 - d.length) ' ' ++ d

/-- One emitted read line: the cat -n style prefix, a tab, and the line
truncated at 2000 characters with an ellipsis (part_007 lines 317-326). -/
def formatReadLine (n : Nat) (line : List Char) : List Char :=
  padNum6 n ++ '\t' ::
    (if 2000 < line.length then line.take 2000 ++ ['.', '.', '.'] else line)

/-- Translation of the scanner loop of ReadTool.Execute (part_007 lines
282-327): walks the lines with the Go lineNum and linesRead counters and
returns the emitted lines together with the final counters.  In range mode
the per-iteration effective bounds are computed exactly as in the source. -/
def readLoop (rangeMode : Bool) (sL eL offset limit : Int) :
    List (List Char) → Nat → Nat → (List (List Char) × Nat × Nat)
  | [], lineNum, linesRead => ([], lineNum, linesRead)
  | l :: rest, lineNum, linesRead =>
    let n := lineNum + 1
    if rangeMode then
      let s := if sL ≤ 0 then 1 else sL
      let e := if eL ≤ 0 then s + 2000 - 1 else eL
      if (n : Int) < s then readLoop rangeMode sL eL offset limit rest n linesRead
      else if e < (n : Int) then ([], n, linesRead)
      else
        let out := readLoop rangeMode sL eL offset limit rest n (linesRead + 1)
        (formatReadLine n l :: out.1, out.2.1, out.2.2)
    else
      if (n : Int) ≤ offset then readLoop rangeMode sL eL offset limit rest n linesRead
      else if limit ≤ (linesRead : Int) then ([], n, linesRead)
      else
        let out := readLoop rangeMode sL eL offset limit rest n (linesRead + 1)
        (formatReadLine n l :: out.1, out.2.1, out.2.2)

/-- The lines slice the read tool emits for a file's content. -/
def readEmitted (p : ReadParams) (content : List Char) : List (List Char) :=
  (readLoop (decide (0 < p.startLine) || decide (0 < p.endLine)) p.startLine p.endLine
    p.offset (if p.limit ≤ 0 then 2000 else p.limit) (splitLines content).1 0 0).1

/-- Translation of ReadTool.Execute (src/unnamed/part_007 lines 226-356):
parameter validation, entry classification, the scanner loop, and the output
assembly with its trailer notes. -/
def readExecute (p : ReadParams) (entry : FsEntry) : ToolResultR :=
  if p.path = "" then ⟨false, "", "path is required"⟩
  else if p.startLine < 0 ∨ p.endLine < 0 then
    ⟨false, "", "start_line and end_line must be >= 1 when provided"⟩
  else if 0 < p.startLine ∧ 0 < p.endLine ∧ p.endLine < p.startLine then
    ⟨false, "", "start_line must be <= end_line"⟩
  else
    match entry with
    | .missing => ⟨false, "", "file not found: " ++ p.path⟩
    | .directory => ⟨false, "", p.path ++ " is a directory"⟩
    | .file content =>
      let limit : Int := if p.limit ≤ 0 then 2000 else p.limit
      let rangeMode : Bool := decide (0 < p.startLine) || decide (0 < p.endLine)
      let t := readLoop rangeMode p.startLine p.endLine p.offset limit
        (splitLines content).1 0 0
      if t.1 = [] then ⟨true, "(empty file or no lines in range)", ""⟩
      else
        let base := String.mk (joinNl t.1)
        let out1 :=
          if rangeMode = false ∧ (t.2.2 : Int) = limit then
            base ++ "\n\n(showing lines " ++ toString (p.offset + 1) ++ "-" ++
              toString t.2.1 ++ ", file may have more content)"
          else base
        let out2 :=
          if rangeMode = true ∧ 0 < p.startLine then
            out1 ++ "\n\n(showing requested range starting at line " ++
              toString p.startLine ++ " through " ++
              toString (if p.endLine ≤ 0 then p.startLine + (t.2.2 : Int) - 1
                else p.endLine) ++ ")"
          else out1
        ⟨true, out2, ""⟩

/-- Lexicographic byte order on character lists, the order Go sort.Strings
sorts by (for the code-point range the embedding uses, byte order and
code-point order agree). -/
def lexLe : List Char → List Char → Bool
  | [], _ => true
  | _ :: _, [] => false
  | a :: as, b :: bs =>
    if a.toNat < b.toNat then true
    else if b.toNat < a.toNat then false
    else lexLe as bs

/-- String order via the underlying characters. -/
def strLe (a b : String) : Bool := lexLe a.data b.data

/-- The sort of Go sort.Strings over the collected count entries: any correct
sort yields the unique ascending ordering once paths are distinct; insertion
sort is used as the executable model. -/
def sortByPath (l : List (String × Nat)) : List (String × Nat) :=
  List.insertionSort (fun x y => strLe x.1 y.1 = true) l

/-- ASCII approximation of Go strings.TrimSpace (the space class of
unicode.IsSpace restricted to ASCII). -/
def isSpaceChar (c : Char) : Bool :=
  c == ' ' || c == '\t' || c == '\n' || c == '\r'

/-- Go strings.TrimSpace over a character list. -/
def trimSpace (s : List Char) : List Char :=
  ((s.dropWhile isSpaceChar).reverse.dropWhile isSpaceChar).reverse

/-- A file as the grep scan sees it after globbing, binary skipping and
exclusion filtering: its display path and its content. -/
structure GrepFile where
  path : String
  content : List Char

/-- One collected grep match (grep.go, type grepMatch; the modification time
used only by the lines mode sort is omitted). -/
structure GrepMatch where
  file : String
  line : Nat
  content : List Char
deriving DecidableEq

/-- Translation of the scanner loop of GrepTool.searchFile (grep.go lines
265-283); the regular-expression engine is abstracted as a per-line match
oracle. -/
def searchLines (matcher : List Char → Bool) (path : String) (maxMatches : Int)
    (stopAtFirst : Bool) :
    List (List Char) → Nat → List GrepMatch → Nat → List GrepMatch × Nat
  | [], _, ms, tot => (ms, tot)
  | l :: rest, lineNum, ms, tot =>
    let n := lineNum + 1
    if matcher l then
      let tot2 := tot + 1
      let ms2 :=
        if maxMatches ≤ 0 ∨ (ms.length : Int) < maxMatches then
          ms ++ [⟨path, n, trimSpace l⟩]
        else ms
      if stopAtFirst then (ms2, tot2)
      else searchLines matcher path maxMatches stopAtFirst rest n ms2 tot2
    else searchLines matcher path maxMatches stopAtFirst rest n ms tot

/-- Translation of GrepTool.searchFile (grep.go lines 252-286). -/
def searchFile (matcher : List Char → Bool) (maxMatches : Int) (stopAtFirst : Bool)
    (f : GrepFile) : List GrepMatch × Nat :=
  searchLines matcher f.path maxMatches stopAtFirst (splitLines f.content).1 0 [] 0

/-- Translation of the file scan of GrepTool.Execute (grep.go lines 159-194):
collect matches and per-file counts in scan order, stopping once the match
list reaches the result cap.  Appending to the count list models the
fileCounts map insertions, which coincide when the scanned paths are
distinct. -/
def grepScan (matcher : List Char → Bool) (maxResults : Nat) (maxPerFile : Int)
    (stopAtFirst : Bool) :
    List GrepFile → List GrepMatch → List (String × Nat) →
      List GrepMatch × List (String × Nat)
  | [], ms, cs => (ms, cs)
  | f :: rest, ms, cs =>
    let r := searchFile matcher maxPerFile stopAtFirst f
    let cs2 := if 0 < r.2 then cs ++ [(f.path, r.2)] else cs
    let ms2 := ms ++ r.1
    if maxResults ≤ ms2.length then (ms2, cs2)
    else grepScan matcher maxResults maxPerFile stopAtFirst rest ms2 cs2

/-- The effective result cap of GrepTool.Execute (grep.go lines 150-156):
non-positive requests fall back to 500, larger requests are clamped to 500. -/
def grepEffMaxResults (p : Int) : Nat :=
  if p ≤ 0 then 500 else if 500 < p then 500 else p.toNat

/-- The count-mode output lines of GrepTool.Execute (grep.go lines 225-233):
one line per counted path, paths sorted ascending. -/
def grepCountLines (matcher : List Char → Bool) (files : List GrepFile)
    (maxResultsParam maxPerFile : Int) : List String :=
  let scan := grepScan matcher (grepEffMaxResults maxResultsParam) maxPerFile false files [] []
  (sortByPath scan.2).map (fun pr => pr.1 ++ ": " ++ Nat.repr pr.2)

/-- The number of matching lines of a file, the specification-side count. -/
def countFileMatches (matcher : List Char → Bool) (f : GrepFile) : Nat :=
  (splitLines f.content).1.countP matcher

/-- Modelled from the spec: a calendar instant at second precision, the time
values over which the scheduler's cron computation works (the cron library
robfig/cron used by Scheduler.calculateNextRun is not part of this
repository's sources). -/
structure CronTime where
  year : Nat
  month : Nat
  day : Nat
  hour : Nat
  minute : Nat
  second : Nat
deriving DecidableEq

/-- Gregorian leap-year rule. -/
def isLeapYear (y : Nat) : Bool :=
  (y % 4 == 0 && y % 100 != 0) || y % 400 == 0

/-- Days in a month of the Gregorian calendar. -/
def daysInMonth (y m : Nat) : Nat :=
  if m = 1 ∨ m = 3 ∨ m = 5 ∨ m = 7 ∨ m = 8 ∨ m = 10 ∨ m = 12 then 31
  else if m = 4 ∨ m = 6 ∨ m = 9 ∨ m = 11 then 30
  else if m = 2 then (if isLeapYear y then 29 else 28)
  else 31

/-- Days since 1970-01-01 of a civil date (the standard era-based civil
calendar computation). -/
def daysFromCivil (y m d : Int) : Int :=
  let y2 := if m ≤ 2 then y - 1 else y
  let era := (if 0 ≤ y2 then y2 else y2 - 399) / 400
  let yoe := y2 - era * 400
  let doy := (153 * (if 2 < m then m - 3 else m + 9) + 2) / 5 + d - 1
  let doe := yoe * 365 + yoe / 4 - yoe / 100 + doy
  era * 146097 + doe - 719468

/-- Day of week with Sunday = 0, as standard cron counts it (1970-01-01 was a
Thursday). -/
def dayOfWeek (t : CronTime) : Nat :=
  ((daysFromCivil t.year t.month t.day + 4) % 7).toNat

/-- Modelled from the spec: one term of a five-field cron expression -
star, a single value, or an inclusive range (spec section 4.5: star, comma,
dash). -/
inductive CronAtom where
  | any
  | num (n : Nat)
  | range (lo hi : Nat)
deriving DecidableEq

/-- Modelled from the spec: a cron term together with its slash step (step 1
when no slash is given). -/
structure CronPart where
  atom : CronAtom
  step : Nat
deriving DecidableEq

/-- A cron field is a comma-separated list of alternatives. -/
abbrev CronField := List CronPart

/-- Whether one cron term accepts a value, given the field's value bounds. -/
def partMatches (fmin fmax : Nat) (p : CronPart) (v : Nat) : Bool :=
  match p.atom with
  | .any => decide (fmin ≤ v) && decide (v ≤ fmax) && (v - fmin) % p.step == 0
  | .num n =>
    if p.step ≤ 1 then v == n
    else decide (n ≤ v) && decide (v ≤ fmax) && (v - n) % p.step == 0
  | .range lo hi => decide (lo ≤ v) && decide (v ≤ hi) && (v - lo) % p.step == 0

/-- Whether a cron field accepts a value: some alternative accepts it. -/
def fieldMatches (fmin fmax : Nat) (f : CronField) (v : Nat) : Bool :=
  f.any (fun p => partMatches fmin fmax p v)

/-- Modelled from the spec: a five-field cron expression
(minute hour day-of-month month day-of-week, spec section 4.5). -/
structure CronExpr where
  minute : CronField
  hour : CronField
  dom : CronField
  month : CronField
  dow : CronField

/-- Modelled from the spec: a time is a firing of the expression when every
field accepts its component; standard five-field cron fires at second 0, so
only whole-minute instants are tested. -/
def cronMatches (e : CronExpr) (t : CronTime) : Bool :=
  fieldMatches 0 59 e.minute t.minute && fieldMatches 0 23 e.hour t.hour &&
    fieldMatches 1 31 e.dom t.day && fieldMatches 1 12 e.month t.month &&
    fieldMatches 0 6 e.dow (dayOfWeek t)

/-- Drop the seconds of an instant. -/
def truncMin (t : CronTime) : CronTime := { t with second := 0 }

/-- The next whole-minute instant, with calendar rollover. -/
def addMinute (t : CronTime) : CronTime :=
  if t.minute + 1 < 60 then ⟨t.year, t.month, t.day, t.hour, t.minute + 1, 0⟩
  else if t.hour + 1 < 24 then ⟨t.year, t.month, t.day, t.hour + 1, 0, 0⟩
  else if t.day + 1 ≤ daysInMonth t.year t.month then ⟨t.year, t.month, t.day + 1, 0, 0, 0⟩
  else if t.month + 1 ≤ 12 then ⟨t.year, t.month + 1, 1, 0, 0, 0⟩
  else ⟨t.year + 1, 1, 1, 0, 0, 0⟩

/-- Lexicographic strict order on calendar instants. -/
def ctLt (a b : CronTime) : Prop :=
  a.year < b.year ∨ (a.year = b.year ∧ (a.month < b.month ∨ (a.month = b.month ∧
    (a.day < b.day ∨ (a.day = b.day ∧ (a.hour < b.hour ∨ (a.hour = b.hour ∧
      (a.minute < b.minute ∨ (a.minute = b.minute ∧ a.second < b.second)))))))))

/-- Minute-by-minute search for the next firing, bounded by fuel (the search
horizon, as the cron library bounds its search by a five-year scan). -/
def cronSearch (e : CronExpr) : Nat → CronTime → Option CronTime
  | 0, _ => none
  | fuel + 1, u => if cronMatches e u then some u else cronSearch e fuel (addMinute u)

/-- Modelled from the spec: cron_next(expr, t) returns the
strictly-greater-than-t firing (spec section 4.5) - the first whole-minute
instant after t accepted by the expression, none if the horizon is
exhausted. -/
def cronNext (e : CronExpr) (fuel : Nat) (t : CronTime) : Option CronTime :=
  cronSearch e fuel (addMinute (truncMin t))

/-- The cron expression of scenario S3. -/
def every15 : CronExpr :=
  ⟨[⟨CronAtom.any, 15⟩], [⟨CronAtom.any, 1⟩], [⟨CronAtom.any, 1⟩],
    [⟨CronAtom.any, 1⟩], [⟨CronAtom.any, 1⟩]⟩

theorem headMatches_eq_append {pat s : List Char} (h : headMatches pat s = true) :
    s = pat ++ s.drop pat.length := by
  induction pat generalizing s with
  | nil => simp
  | cons a as ih =>
    cases s with
    | nil => simp [headMatches] at h
    | cons b bs =>
      simp only [headMatches, Bool.and_eq_true, beq_iff_eq] at h
      obtain ⟨rfl, h2⟩ := h
      simpa using ih h2

theorem countLoop_zero_replAll (p : Char) (ps new : List Char) :
    ∀ fuel (s : List Char), s.length ≤ fuel → countLoop p ps fuel s = 0 →
      replAllLoop p ps new fuel s = s := by
  intro fuel
  induction fuel with
  | zero =>
    intro s hl _
    have : s = [] := List.length_eq_zero.mp (Nat.le_zero.mp hl)
    subst this
    rfl
  | succ fuel ih =>
    intro s hl h
    cases s with
    | nil => rfl
    | cons c rest =>
      by_cases hm : headMatches (p :: ps) (c :: rest) = true
      · rw [countLoop] at h
        simp [hm] at h
      · rw [countLoop] at h
        rw [replAllLoop]
        simp only [hm, if_false, Bool.false_eq_true] at h ⊢
        have hr : rest.length ≤ fuel := by simp at hl; omega
        rw [ih rest hr h]

theorem count_one_decomp (p : Char) (ps new : List Char) :
    ∀ fuel (s : List Char), s.length ≤ fuel → countLoop p ps fuel s = 1 →
      ∃ pre post, s = pre ++ (p :: ps) ++ post ∧
        replFirstAux p ps new s = pre ++ new ++ post ∧
        replAllLoop p ps new fuel s = pre ++ new ++ post := by
  intro fuel
  induction fuel with
  | zero =>
    intro s hl h
    have : s = [] := List.length_eq_zero.mp (Nat.le_zero.mp hl)
    subst this
    simp [countLoop] at h
  | succ fuel ih =>
    intro s hl h
    cases s with
    | nil => simp [countLoop] at h
    | cons c rest =>
      have hrest : rest.length ≤ fuel := by simp at hl; omega
      by_cases hm : headMatches (p :: ps) (c :: rest) = true
      · rw [countLoop] at h
        simp only [hm, if_true] at h
        have hzero : countLoop p ps fuel (rest.drop ps.length) = 0 := by omega
        have hdl : (rest.drop ps.length).length ≤ fuel := by
          simp [List.length_drop]; omega
        refine ⟨[], rest.drop ps.length, ?_, ?_, ?_⟩
        · have := headMatches_eq_append hm
          simpa using this
        · rw [replFirstAux]; simp [hm]
        · rw [replAllLoop]
          simp only [hm, if_true, List.nil_append]
          rw [countLoop_zero_replAll p ps new fuel _ hdl hzero]
      · rw [countLoop] at h
        simp only [hm, if_false, Bool.false_eq_true] at h
        obtain ⟨pre, post, hs, hrf, hra⟩ := ih rest hrest h
        refine ⟨c :: pre, post, by simp [hs], ?_, ?_⟩
        · rw [replFirstAux]; simp [hm, hrf]
        · rw [replAllLoop]; simp [hm, hra]

/-- Claim C3 (amended): for every file and strings old_string/new_string, with
old_string non-empty and different from new_string (the claim's own equal-strings
clause already makes those cases fail), edit with old_string occurring exactly
once succeeds and the file afterwards equals the original with that single
occurrence replaced; edit with old_string occurring more than once and
replace_all = false fails and the file is unchanged; edit with old_string absent
fails with the file unchanged; edit with old_string equal to new_string fails
with the file unchanged. -/
theorem edit_spec (path : String) (hpath : path ≠ "") (oldS newS content : List Char)
    (rall : Bool) :
    (oldS ≠ [] → oldS ≠ newS → countOccur content oldS = 1 →
      (editExecute ⟨path, oldS, newS, rall⟩ (some content)).1.success = true ∧
      ∃ pre post, content = pre ++ oldS ++ post ∧
        (editExecute ⟨path, oldS, newS, rall⟩ (some content)).2 = some (pre ++ newS ++ post)) ∧
    (1 < countOccur content oldS → rall = false →
      (editExecute ⟨path, oldS, newS, rall⟩ (some content)).1.success = false ∧
      (editExecute ⟨path, oldS, newS, rall⟩ (some content)).2 = some content) ∧
    (countOccur content oldS = 0 →
      (editExecute ⟨path, oldS, newS, rall⟩ (some content)).1.success = false ∧
      (editExecute ⟨path, oldS, newS, rall⟩ (some content)).2 = some content) ∧
    (oldS = newS →
      (editExecute ⟨path, oldS, newS, rall⟩ (some content)).1.success = false ∧
      (editExecute ⟨path, oldS, newS, rall⟩ (some content)).2 = some content) := by
  refine ⟨?_, ?_, ?_, ?_⟩
  · intro ho hne hc
    obtain ⟨p, ps, rfl⟩ : ∃ p ps, oldS = p :: ps := by
      cases oldS with
      | nil => exact absurd rfl ho
      | cons p ps => exact ⟨p, ps, rfl⟩
    have hc' : countLoop p ps content.length content = 1 := hc
    obtain ⟨pre, post, hs, hrf, hra⟩ :=
      count_one_decomp p ps newS content.length content le_rfl hc'
    have hone : countOccur content (p :: ps) = 1 := hc
    refine ⟨?_, pre, post, hs, ?_⟩
    · simp [editExecute, hpath, hne, hone, apply_ite ToolResultR.success]
    · simp [editExecute, hpath, hne, hone, apply_ite Prod.snd,
        replaceFirst, replaceAllGo, hrf, hra]
  · intro h2 hrall
    subst hrall
    by_cases ho : oldS = []
    · simp [editExecute, hpath, ho]
    · by_cases hne : oldS = newS
      · subst hne
        simp [editExecute, hpath, ho]
      · have h0 : countOccur content oldS ≠ 0 := by omega
        simp [editExecute, hpath, ho, hne, h0, h2]
  · intro h0
    have ho : oldS ≠ [] := by
      intro h
      subst h
      simp [countOccur] at h0
    by_cases hne : oldS = newS
    · subst hne
      simp [editExecute, hpath, ho]
    · simp [editExecute, hpath, ho, hne, h0]
  · intro h
    by_cases ho : oldS = []
    · simp [editExecute, hpath, ho]
    · have ho' : newS ≠ [] := by rw [← h]; exact ho
      simp [editExecute, hpath, h, ho']

/-- Claim C3 counterexample to the claim as stated: over the empty file, the
empty old_string occurs exactly once by Go strings.Count semantics, yet the
edit fails (the tool rejects an empty old_string), so "edit with old_string
occurring exactly once succeeds" is false without the non-empty proviso. -/
theorem edit_claim_counterexample :
    countOccur [] [] = 1 ∧
    (editExecute ⟨"notes.md", [], ['x'], false⟩ (some [])).1.success = false := by
  constructor <;> rfl

/-- Claim C3 witness: a file containing xfooy, replacing the unique foo by bar. -/
theorem edit_spec_witness :
    (editExecute ⟨"notes.md", ['f','o','o'], ['b','a','r'], false⟩
        (some ['x','f','o','o','y'])).1.success = true ∧
    ∃ pre post, ['x','f','o','o','y'] = pre ++ ['f','o','o'] ++ post ∧
      (editExecute ⟨"notes.md", ['f','o','o'], ['b','a','r'], false⟩
          (some ['x','f','o','o','y'])).2 = some (pre ++ ['b','a','r'] ++ post) :=
  (edit_spec "notes.md" (by decide) ['f','o','o'] ['b','a','r'] ['x','f','o','o','y']
      false).1 (by decide) (by decide) (by decide)

theorem splitOnNl_ne_nil : ∀ s : List Char, splitOnNl s ≠ [] := by
  intro s
  induction s with
  | nil => simp [splitOnNl]
  | cons c rest ih =>
    rw [splitOnNl]
    split
    · simp
    · split
      · simp
      · simp

theorem splitOnNl_no_nl : ∀ s : List Char, ∀ l ∈ splitOnNl s, '\n' ∉ l := by
  intro s
  induction s with
  | nil => intro l hl; simp [splitOnNl] at hl; simp [hl]
  | cons c rest ih =>
    intro l hl
    rw [splitOnNl] at hl
    by_cases hc : c = '\n'
    · simp only [hc, if_true] at hl
      rcases List.mem_cons.mp hl with h | h
      · simp [h]
      · exact ih l h
    · simp only [hc, if_false] at hl
      rcases hsp : splitOnNl rest with _ | ⟨l0, ls⟩
      · exact absurd hsp (splitOnNl_ne_nil rest)
      · rw [hsp] at hl
        rcases List.mem_cons.mp hl with h | h
        · subst h
          intro hmem
          rcases List.mem_cons.mp hmem with h | h
          · exact hc h.symm
          · exact ih l0 (hsp ▸ List.mem_cons_self l0 ls) h
        · exact ih l (hsp ▸ List.mem_cons_of_mem l0 h)

theorem splitOnNl_single {l : List Char} (h : '\n' ∉ l) : splitOnNl l = [l] := by
  induction l with
  | nil => rfl
  | cons c rest ih =>
    have hc : ¬ c = '\n' := fun hcc => h (hcc ▸ List.mem_cons_self c rest)
    have hr : '\n' ∉ rest := fun hm => h (List.mem_cons_of_mem c hm)
    rw [splitOnNl]
    simp only [hc, if_false]
    rw [ih hr]

theorem splitOnNl_append {l : List Char} (rest : List Char) (h : '\n' ∉ l) :
    splitOnNl (l ++ '\n' :: rest) = l :: splitOnNl rest := by
  induction l with
  | nil => simp [splitOnNl]
  | cons c l2 ih =>
    have hc : ¬ c = '\n' := fun hcc => h (hcc ▸ List.mem_cons_self c l2)
    have hr : '\n' ∉ l2 := fun hm => h (List.mem_cons_of_mem c hm)
    rw [List.cons_append, splitOnNl]
    simp only [hc, if_false]
    rw [ih hr]

theorem joinNl_cons {ls : List (List Char)} (l : List Char) (h : ls ≠ []) :
    joinNl (l :: ls) = l ++ '\n' :: joinNl ls := by
  cases ls with
  | nil => exact absurd rfl h
  | cons l2 ls2 => rfl

theorem splitOnNl_joinNl : ∀ ls : List (List Char), ls ≠ [] →
    (∀ l ∈ ls, '\n' ∉ l) → splitOnNl (joinNl ls) = ls := by
  intro ls
  induction ls with
  | nil => intro h; exact absurd rfl h
  | cons l ls2 ih =>
    intro _ hn
    cases ls2 with
    | nil =>
      show splitOnNl (joinNl [l]) = [l]
      exact splitOnNl_single (hn l (List.mem_cons_self l []))
    | cons l2 ls3 =>
      rw [joinNl_cons l (by simp)]
      rw [splitOnNl_append _ (hn l (List.mem_cons_self l _))]
      rw [ih (by simp) (fun x hx => hn x (List.mem_cons_of_mem l hx))]

theorem joinNl_no_trailing : ∀ ls : List (List Char), ls ≠ [] →
    ls.getLast? ≠ some [] → (∀ l ∈ ls, '\n' ∉ l) →
    joinNl ls ≠ [] ∧ (joinNl ls).getLast? ≠ some '\n' := by
  intro ls
  induction ls with
  | nil => intro h; exact absurd rfl h
  | cons l ls2 ih =>
    intro _ hlast hn
    cases ls2 with
    | nil =>
      have hlne : l ≠ [] := by
        intro h
        exact hlast (by simp [h])
      refine ⟨hlne, ?_⟩
      show l.getLast? ≠ some '\n'
      rw [List.getLast?_eq_getLast l hlne]
      intro hcon
      have hl : l.getLast hlne = '\n' := by
        simpa using hcon
      exact hn l (List.mem_cons_self l []) (hl ▸ List.getLast_mem hlne)
    | cons l2 ls3 =>
      have hlast2 : (l2 :: ls3).getLast? ≠ some [] := by
        simpa [List.getLast?_cons_cons] using hlast
      obtain ⟨hne2, hnl2⟩ := ih (by simp) hlast2
        (fun x hx => hn x (List.mem_cons_of_mem l hx))
      rw [joinNl_cons l (by simp)]
      refine ⟨by simp, ?_⟩
      rw [List.getLast?_append]
      have hj : ('\n' :: joinNl (l2 :: ls3)).getLast? = (joinNl (l2 :: ls3)).getLast? := by
        cases hj2 : joinNl (l2 :: ls3) with
        | nil => exact absurd hj2 hne2
        | cons x xs => rw [List.getLast?_cons_cons]
      rw [hj]
      obtain ⟨c, hc⟩ : ∃ c, (joinNl (l2 :: ls3)).getLast? = some c := by
        cases hj2 : joinNl (l2 :: ls3) with
        | nil => exact absurd hj2 hne2
        | cons x xs => exact ⟨(x :: xs).getLast (by simp), List.getLast?_eq_getLast _ _⟩
      rw [hc]
      intro hcon
      rw [hc] at hnl2
      exact hnl2 hcon

theorem splitLines_no_nl (s : List Char) : ∀ l ∈ (splitLines s).1, '\n' ∉ l := by
  intro l hl
  rw [splitLines] at hl
  split at hl
  · simp at hl
  · exact splitOnNl_no_nl _ l hl

theorem splitLines_snd_ne_nil {s : List Char} (h : (splitLines s).2 = true) :
    (splitLines s).1 ≠ [] := by
  by_cases hs : s = []
  · rw [splitLines] at h
    simp [hs] at h
  · rw [splitLines, if_neg hs]
    exact splitOnNl_ne_nil _

/-- The number of lines of the content written by the line tools: joining the
new line list and optionally appending a trailing newline, then re-reading,
recovers exactly the new line list, except in the degenerate case where no
trailing newline is kept and the final line is empty. -/
theorem lineCount_after_write (newLines : List (List Char)) (origT replT : Bool)
    (hn : ∀ l ∈ newLines, '\n' ∉ l)
    (hrt : replT = true → newLines ≠ [])
    (hprov : replT = true ∨ origT = true ∨ newLines.getLast? ≠ some []) :
    (splitLines (joinNl newLines ++
      (if shouldKeepTrailingNewline origT replT newLines.length then ['\n'] else []))).1.length
      = newLines.length := by
  by_cases hnl : newLines = []
  · subst hnl
    have hr : replT = false := by
      cases replT with
      | false => rfl
      | true => exact absurd (hrt rfl) (by simp)
    subst hr
    simp [shouldKeepTrailingNewline, joinNl, splitLines]
  · by_cases hkeep :
      shouldKeepTrailingNewline origT replT newLines.length = true
    · rw [hkeep]
      simp only [if_true]
      have hne : joinNl newLines ++ ['\n'] ≠ [] := by simp
      rw [splitLines]
      simp only [hne, if_false]
      have hlast : (joinNl newLines ++ ['\n']).getLast? = some '\n' :=
        List.getLast?_concat _
      have hbeq : ((joinNl newLines ++ ['\n']).getLast? == some '\n') = true := by
        rw [hlast]; rfl
      simp only [hbeq, if_true, List.dropLast_concat]
      rw [splitOnNl_joinNl newLines hnl hn]
    · have hkeep' : shouldKeepTrailingNewline origT replT newLines.length = false :=
        Bool.eq_false_iff.mpr hkeep
      have hreplT : replT = false := by
        cases replT with
        | false => rfl
        | true => simp [shouldKeepTrailingNewline] at hkeep'
      have horigT : origT = false := by
        cases origT with
        | false => rfl
        | true =>
          have hpos : 0 < newLines.length := List.length_pos.mpr hnl
          simp [shouldKeepTrailingNewline, hreplT, hpos] at hkeep'
      have hlast : newLines.getLast? ≠ some [] := by
        rcases hprov with h | h | h
        · rw [hreplT] at h; simp at h
        · rw [horigT] at h; simp at h
        · exact h
      obtain ⟨hne, hnotn⟩ := joinNl_no_trailing newLines hnl hlast hn
      rw [hkeep']
      simp only [if_false, List.append_nil, Bool.false_eq_true]
      rw [splitLines]
      simp only [hne, if_false]
      have hbeq : ((joinNl newLines).getLast? == some '\n') = false := by
        cases hg : (joinNl newLines).getLast? with
        | none => rfl
        | some c =>
          have : c ≠ '\n' := by
            intro hcc
            exact hnotn (by rw [hg, hcc])
          simp [this]
      simp only [hbeq, if_false, Bool.false_eq_true]
      rw [splitOnNl_joinNl newLines hnl hn]

/-- Claim C4 (amended): for every file with original_lines lines and every
valid range 1 ≤ start ≤ end ≤ original_lines, replace_lines succeeds and the
file's line count equals original_lines − (end − start + 1) + lines_in(content),
provided the original file or the replacement content ends with a newline or
the resulting final line is non-empty (in the remaining degenerate case the
written file drops the final empty line and the count is one less); if the
range exceeds the file length or is inverted, the call fails. -/
theorem replace_lines_spec (path : String) (hpath : path ≠ "")
    (content repl : List Char) (s e : Int) :
    (1 ≤ s → s ≤ e → e ≤ ((splitLines content).1.length : Int) →
      (replaceLinesExecute ⟨path, s, e, repl⟩ (some content)).1.success = true ∧
      (((splitLines repl).2 = true ∨ (splitLines content).2 = true ∨
          (replaceLinesNewLines (splitLines content).1 (splitLines repl).1
            s.toNat e.toNat).getLast? ≠ some []) →
        ∀ c, (replaceLinesExecute ⟨path, s, e, repl⟩ (some content)).2 = some c →
          (splitLines c).1.length =
            (splitLines content).1.length - (e.toNat - s.toNat + 1) +
              (splitLines repl).1.length)) ∧
    (((splitLines content).1.length : Int) < e →
      (replaceLinesExecute ⟨path, s, e, repl⟩ (some content)).1.success = false) ∧
    (e < s →
      (replaceLinesExecute ⟨path, s, e, repl⟩ (some content)).1.success = false) := by
  refine ⟨?_, ?_, ?_⟩
  · intro h1 h2 h3
    have hs0 : ¬ (s ≤ 0 ∨ e ≤ 0) := by omega
    have hes : ¬ (e < s) := by omega
    have hlen : ¬ (((splitLines content).1.length : Int) < e) := by omega
    constructor
    · simp [replaceLinesExecute, hpath, hs0, hes, hlen]
    · intro hprov c hc
      simp only [replaceLinesExecute, hpath, hs0, hes, hlen, if_false,
        Option.some.injEq, reduceCtorEq] at hc
      subst hc
      set lines := (splitLines content).1 with hlines
      set rlines := (splitLines repl).1 with hrlines
      set newLines := replaceLinesNewLines lines rlines s.toNat e.toNat with hnewdef
      have hn : ∀ l ∈ newLines, '\n' ∉ l := by
        intro l hl
        rw [hnewdef, replaceLinesNewLines] at hl
        rcases List.mem_append.mp hl with hl2 | hl2
        · rcases List.mem_append.mp hl2 with hl3 | hl3
          · exact splitLines_no_nl content l ((List.take_sublist _ _).mem hl3)
          · exact splitLines_no_nl repl l hl3
        · exact splitLines_no_nl content l ((List.drop_sublist _ _).mem hl2)
      have hrt : (splitLines repl).2 = true → newLines ≠ [] := by
        intro hT
        have : rlines ≠ [] := splitLines_snd_ne_nil hT
        rw [hnewdef, replaceLinesNewLines]
        intro hempty
        have := List.append_eq_nil.mp hempty
        have := List.append_eq_nil.mp this.1
        exact absurd this.2 ‹rlines ≠ []›
      rw [lineCount_after_write newLines (splitLines content).2 (splitLines repl).2 hn hrt
        (by rcases hprov with h | h | h
            · exact Or.inl h
            · exact Or.inr (Or.inl h)
            · exact Or.inr (Or.inr h))]
      rw [hnewdef, replaceLinesNewLines]
      have ht : (lines.take (s.toNat - 1)).length = s.toNat - 1 := by
        rw [List.length_take]
        omega
      have hd : (lines.drop e.toNat).length = lines.length - e.toNat := by
        rw [List.length_drop]
      simp only [List.length_append, ht, hd]
      omega
  · intro h
    by_cases hs0 : s ≤ 0 ∨ e ≤ 0
    · simp [replaceLinesExecute, hpath, hs0]
    · by_cases hes : e < s
      · simp [replaceLinesExecute, hpath, hs0, hes]
      · simp [replaceLinesExecute, hpath, hs0, hes, h]
  · intro h
    by_cases hs0 : s ≤ 0 ∨ e ≤ 0
    · simp [replaceLinesExecute, hpath, hs0]
    · simp [replaceLinesExecute, hpath, hs0, h]

/-- Claim C4 counterexample to the claim as stated: the file consisting of an
empty line followed by the line a with no trailing newline has 2 lines;
replace_lines(2,2,"") succeeds and writes the empty file, which has 0 lines,
while the claimed formula gives 2 − (2 − 2 + 1) + 0 = 1. -/
theorem replace_lines_count_counterexample :
    (replaceLinesExecute ⟨"f", 2, 2, []⟩ (some ['\n', 'a'])).1.success = true ∧
    (replaceLinesExecute ⟨"f", 2, 2, []⟩ (some ['\n', 'a'])).2 = some [] ∧
    (splitLines ['\n', 'a']).1.length = 2 ∧
    (splitLines ([] : List Char)).1.length = 0 ∧
    2 - (2 - 2 + 1) + (splitLines ([] : List Char)).1.length = 1 := by
  refine ⟨rfl, rfl, rfl, rfl, rfl⟩

/-- Claim C4 witness: replacing line 2 of a three-line file by two lines gives
a four-line file, matching the formula 3 − 1 + 2. -/
theorem replace_lines_spec_witness :
    (replaceLinesExecute ⟨"f", 2, 2, ['X', '\n', 'Y', '\n']⟩
        (some ['a', '\n', 'b', '\n', 'c', '\n'])).1.success = true ∧
    (splitLines ['a', '\n', 'X', '\n', 'Y', '\n', 'c', '\n']).1.length =
      (splitLines ['a', '\n', 'b', '\n', 'c', '\n']).1.length -
        ((2 : Int).toNat - (2 : Int).toNat + 1) +
        (splitLines ['X', '\n', 'Y', '\n']).1.length := by
  have h := (replace_lines_spec "f" (by decide) ['a', '\n', 'b', '\n', 'c', '\n']
    ['X', '\n', 'Y', '\n'] 2 2).1 (by decide) (by decide) (by decide)
  exact ⟨h.1, h.2 (Or.inl (by decide)) _ (by rfl)⟩

/-- Claim C9: whenever edit, replace_lines, or insert_lines returns a result
with success = false, the target file's content is unchanged. -/
theorem failed_edits_leave_file_unchanged :
    (∀ (p : EditParams) (file : Option (List Char)),
      (editExecute p file).1.success = false → (editExecute p file).2 = file) ∧
    (∀ (p : ReplaceLinesParams) (file : Option (List Char)),
      (replaceLinesExecute p file).1.success = false → (replaceLinesExecute p file).2 = file) ∧
    (∀ (p : InsertLinesParams) (file : Option (List Char)),
      (insertLinesExecute p file).1.success = false → (insertLinesExecute p file).2 = file) := by
  refine ⟨?_, ?_, ?_⟩
  · intro p file h
    cases file with
    | none =>
      simp only [editExecute] at h ⊢
      split_ifs at h ⊢ <;> rfl
    | some content =>
      simp only [editExecute] at h ⊢
      split_ifs at h ⊢ <;> simp_all
  · intro p file h
    cases file with
    | none =>
      simp only [replaceLinesExecute] at h ⊢
      split_ifs at h ⊢ <;> rfl
    | some content =>
      simp only [replaceLinesExecute] at h ⊢
      split_ifs at h ⊢ <;> simp_all
  · intro p file h
    cases file with
    | none =>
      simp only [insertLinesExecute] at h ⊢
      split_ifs at h ⊢ <;> rfl
    | some content =>
      simp only [insertLinesExecute] at h ⊢
      split_ifs at h ⊢ <;> simp_all

/-- Claim C9 witness: editing a missing file fails and leaves the entry
missing. -/
theorem failed_edits_leave_file_unchanged_witness :
    (editExecute ⟨"f", ['a'], ['b'], false⟩ none).2 = none :=
  failed_edits_leave_file_unchanged.1 ⟨"f", ['a'], ['b'], false⟩ none (by rfl)

/-- The content written by insert_lines ends in a newline whenever it is
non-empty: either the trailing newline is appended (original had one, or the
new line list is non-empty), or the new line list is empty and the content is
empty. -/
theorem insert_newContent_getLast (origT : Bool) (newLines : List (List Char))
    (h : joinNl newLines ++
      (if origT || decide (0 < newLines.length) then ['\n'] else []) ≠ []) :
    (joinNl newLines ++
      (if origT || decide (0 < newLines.length) then ['\n'] else [])).getLast?
      = some '\n' := by
  by_cases hk : (origT || decide (0 < newLines.length)) = true
  · simp only [hk, if_true]
    exact List.getLast?_concat _
  · simp only [Bool.or_eq_true, decide_eq_true_eq, not_or] at hk
    have h1 : origT = false := Bool.eq_false_iff.mpr hk.1
    have hnil : newLines = [] := by
      apply List.length_eq_zero.mp
      have := hk.2
      omega
    subst hnil
    exfalso
    apply h
    simp [joinNl, h1]

/-- Claim C10: every successful insert_lines call whose resulting file content
is non-empty writes a file ending in a newline, even when the original file
did not end with one and the inserted content does not end with one. -/
theorem insert_lines_trailing_newline (p : InsertLinesParams) (file : Option (List Char))
    (c : List Char) (hs : (insertLinesExecute p file).1.success = true)
    (hc : (insertLinesExecute p file).2 = some c) (hne : c ≠ []) :
    c.getLast? = some '\n' := by
  cases file with
  | none =>
    simp only [insertLinesExecute] at hs
    split_ifs at hs
  | some content =>
    by_cases hp : p.path = ""
    · simp only [insertLinesExecute, hp, if_true] at hs
      exact absurd hs (by simp)
    · simp only [insertLinesExecute, hp, if_false] at hs hc
      by_cases hlen : ((splitLines content).1.length : Int) <
          (if p.afterLine < 0 then ((splitLines content).1.length : Int) else p.afterLine)
      · rw [if_pos hlen] at hs
        exact absurd hs (by simp)
      · rw [if_neg hlen] at hc
        simp only [apply_ite Prod.snd, ite_self] at hc
        have hc2 := Option.some.inj hc
        subst hc2
        exact insert_newContent_getLast _ _ hne

/-- Claim C10 witness: appending x to a one-line file without trailing newline
writes a file ending in a newline. -/
theorem insert_lines_trailing_newline_witness :
    ['a', '\n', 'x', '\n'].getLast? = some '\n' :=
  insert_lines_trailing_newline ⟨"f", -1, ['x']⟩ (some ['a']) ['a', '\n', 'x', '\n']
    (by rfl) (by rfl) (by decide)

theorem buildToolResult_callID (tc : ToolCallR) (o : ExecOutcome) :
    (buildToolResult tc o).toolCallID = tc.id := by
  cases o with
  | fatal e => rfl
  | returned r =>
    by_cases h : r.success = true <;> simp [buildToolResult, h]

/-- Claim C2: for every batch of tool calls dispatched in one step,
ExecuteParallel returns a tool-result list of the same length as the batch,
and the result at index i carries the call_id of the call at index i (the
call-id lists coincide position-wise). -/
theorem executeParallel_aligned (exec : ToolCallR → ExecOutcome) (calls : List ToolCallR) :
    (executeParallel exec calls).length = calls.length ∧
    (executeParallel exec calls).map ToolResultMsg.toolCallID = calls.map ToolCallR.id := by
  constructor
  · simp [executeParallel]
  · rw [executeParallel, List.map_map]
    apply List.map_congr_left
    intro tc _
    exact buildToolResult_callID tc (exec tc)

theorem getD_append_self (front : List MessageR) (x : MessageR) (tail : List MessageR)
    (d : MessageR) : (front ++ x :: tail).getD front.length d = x := by
  rw [List.getD_eq_getElem?_getD, List.getElem?_append_right (le_refl _)]
  simp

theorem getD_append_succ (front : List MessageR) (x : MessageR) (tail : List MessageR)
    (d : MessageR) : (front ++ x :: tail).getD (front.length + 1) d = tail.getD 0 d := by
  rw [List.getD_eq_getElem?_getD,
    List.getElem?_append_right (by omega : front.length ≤ front.length + 1)]
  have h1 : front.length + 1 - front.length = 1 := by omega
  rw [h1]
  cases tail <;> simp [List.getD]

theorem cleanupGo_eq_foldr (front : List MessageR) :
    ∀ rest : List MessageR,
      cleanupGo front.length (front ++ rest) = front.foldr repairStep rest := by
  induction front using List.reverseRecOn with
  | nil => intro rest; simp [cleanupGo]
  | append_singleton front a ih =>
    intro rest
    have hlen : (front ++ [a]).length = front.length + 1 := by simp
    have hmsgs : (front ++ [a]) ++ rest = front ++ (a :: rest) := by simp
    rw [hlen, hmsgs, cleanupGo]
    simp only [getD_append_self]
    rw [List.foldr_append]
    have hstep : [a].foldr repairStep rest = repairStep a rest := rfl
    rw [hstep]
    by_cases hcond : a.role = "assistant" ∧ a.toolCalls ≠ []
    · by_cases hres : rest.head?.map MessageR.role = some "tool"
      · have hcond2 : front.length + 1 < (front ++ a :: rest).length ∧
            ((front ++ a :: rest).getD (front.length + 1) ⟨"", "", [], []⟩).role = "tool" := by
          cases rest with
          | nil => simp at hres
          | cons r rs =>
            refine ⟨by simp only [List.length_append, List.length_cons]; omega, ?_⟩
            rw [getD_append_succ]
            simpa using hres
        rw [if_pos hcond, if_pos hcond2, ih (a :: rest)]
        have : repairStep a rest = a :: rest := by
          rw [repairStep, if_neg (fun hx => hx.2.2 hres)]
        rw [this]
      · have hcond2 : ¬(front.length + 1 < (front ++ a :: rest).length ∧
            ((front ++ a :: rest).getD (front.length + 1) ⟨"", "", [], []⟩).role = "tool") := by
          cases rest with
          | nil =>
            intro hx
            have := hx.1
            simp [List.length_append] at this
          | cons r rs =>
            intro hx
            have h2 := hx.2
            rw [getD_append_succ] at h2
            apply hres
            simpa using h2
        rw [if_pos hcond, if_neg hcond2]
        have htake : (front ++ a :: rest).take front.length = front := List.take_left front _
        have hdrop : (front ++ a :: rest).drop (front.length + 1) = rest := by
          have e1 : front.length + 1 = (front ++ [a]).length := by simp
          have e2 : front ++ a :: rest = (front ++ [a]) ++ rest := by simp
          rw [e1, e2]
          exact List.drop_left _ _
        rw [htake, hdrop, ih rest]
        have : repairStep a rest = rest := by
          rw [repairStep, if_pos ⟨hcond.1, hcond.2, hres⟩]
        rw [this]
    · rw [if_neg hcond, ih (a :: rest)]
      have : repairStep a rest = a :: rest := by
        rw [repairStep, if_neg (fun hx => hcond ⟨hx.1, hx.2.1⟩)]
      rw [this]

theorem repairDangling_head_tool (l : List MessageR) :
    ((repairDangling l).head?.map MessageR.role = some "tool") ↔
      (l.head?.map MessageR.role = some "tool") := by
  induction l with
  | nil => simp [repairDangling]
  | cons m rest ih =>
    by_cases hcond : m.role = "assistant" ∧ m.toolCalls ≠ [] ∧
        rest.head?.map MessageR.role ≠ some "tool"
    · rw [repairDangling, if_pos hcond, ih]
      constructor
      · intro h
        exact absurd h hcond.2.2
      · intro h
        simp only [List.head?_cons, Option.map_some] at h
        have : m.role = "tool" := by simpa using h
        rw [hcond.1] at this
        exact absurd this (by decide)
    · rw [repairDangling, if_neg hcond]
      simp

theorem foldr_repairStep_eq (l : List MessageR) :
    l.foldr repairStep [] = repairDangling l := by
  induction l with
  | nil => rfl
  | cons m rest ih =>
    rw [List.foldr_cons, ih]
    by_cases hcond : m.role = "assistant" ∧ m.toolCalls ≠ [] ∧
        rest.head?.map MessageR.role ≠ some "tool"
    · have hcond' : m.role = "assistant" ∧ m.toolCalls ≠ [] ∧
          (repairDangling rest).head?.map MessageR.role ≠ some "tool" :=
        ⟨hcond.1, hcond.2.1, fun hh => hcond.2.2 ((repairDangling_head_tool rest).mp hh)⟩
      rw [repairStep, if_pos hcond', repairDangling, if_pos hcond]
    · have hcond' : ¬(m.role = "assistant" ∧ m.toolCalls ≠ [] ∧
          (repairDangling rest).head?.map MessageR.role ≠ some "tool") := by
        intro hx
        exact hcond ⟨hx.1, hx.2.1, fun hh => hx.2.2 ((repairDangling_head_tool rest).mpr hh)⟩
      rw [repairStep, if_neg hcond', repairDangling, if_neg hcond]

theorem danglingFreeB_repairDangling (l : List MessageR) :
    danglingFreeB (repairDangling l) = true := by
  induction l with
  | nil => rfl
  | cons m rest ih =>
    by_cases hcond : m.role = "assistant" ∧ m.toolCalls ≠ [] ∧
        rest.head?.map MessageR.role ≠ some "tool"
    · rw [repairDangling, if_pos hcond]
      exact ih
    · rw [repairDangling, if_neg hcond, danglingFreeB]
      simp only [Bool.and_eq_true]
      refine ⟨?_, ih⟩
      by_cases hma : m.role = "assistant" ∧ m.toolCalls ≠ []
      · rw [if_pos hma]
        have hres : rest.head?.map MessageR.role = some "tool" := by
          by_contra hx
          exact hcond ⟨hma.1, hma.2, hx⟩
        have := (repairDangling_head_tool rest).mpr hres
        simp [this]
      · rw [if_neg hma]

/-- Claim C1: running the resume repair removes exactly the assistant messages
whose tool-call list is non-empty and that are not immediately followed by a
tool message (no other message is removed), and afterwards every assistant
message with a non-empty tool-call list is immediately followed by a tool
message. -/
theorem cleanup_repairs_dangling (msgs : List MessageR) :
    cleanupIncompleteToolCalls msgs = repairDangling msgs ∧
    danglingFreeB (cleanupIncompleteToolCalls msgs) = true := by
  have heq : cleanupIncompleteToolCalls msgs = repairDangling msgs := by
    rw [cleanupIncompleteToolCalls]
    by_cases h : msgs = []
    · rw [if_pos h, h]
      rfl
    · rw [if_neg h]
      have hfold := cleanupGo_eq_foldr msgs []
      rw [List.append_nil] at hfold
      rw [hfold, foldr_repairStep_eq]
  exact ⟨heq, heq ▸ danglingFreeB_repairDangling msgs⟩

theorem getLastGo_prefix (front tail : List MessageR) :
    ∀ i, i ≤ front.length → getLastGo (front ++ tail) i = getLastGo front i := by
  intro i
  induction i with
  | zero => intro _; rfl
  | succ i ih =>
    intro hle
    rw [getLastGo, getLastGo]
    have hget : (front ++ tail).getD i ⟨"", "", [], []⟩ = front.getD i ⟨"", "", [], []⟩ := by
      rw [List.getD_eq_getElem?_getD, List.getD_eq_getElem?_getD,
        List.getElem?_append_left (by omega)]
    rw [hget]
    by_cases hcc : (front.getD i ⟨"", "", [], []⟩).role = "assistant" ∧
        (front.getD i ⟨"", "", [], []⟩).content ≠ ""
    · rw [if_pos hcc, if_pos hcc]
    · rw [if_neg hcc, if_neg hcc, ih (by omega)]

theorem getLastGo_eq_spec (msgs : List MessageR) :
    getLastGo msgs msgs.length = lastNonEmptyAssistantContent msgs := by
  induction msgs using List.reverseRecOn with
  | nil => rfl
  | append_singleton front a ih =>
    have hlen : (front ++ [a]).length = front.length + 1 := by simp
    rw [hlen, getLastGo]
    have hget : (front ++ [a]).getD front.length ⟨"", "", [], []⟩ = a :=
      getD_append_self front a [] _
    rw [hget]
    by_cases hcc : a.role = "assistant" ∧ a.content ≠ ""
    · rw [if_pos hcc]
      have hpred : (a.role == "assistant" && a.content != "") = true := by
        simp only [Bool.and_eq_true, beq_iff_eq, bne_iff_ne]
        exact hcc
      rw [lastNonEmptyAssistantContent, List.reverse_append]
      simp only [List.reverse_singleton, List.singleton_append]
      simp [List.find?_cons, hpred]
    · rw [if_neg hcc, getLastGo_prefix front [a] front.length le_rfl, ih]
      have hpred : (a.role == "assistant" && a.content != "") = false := by
        rcases not_and_or.mp hcc with h | h
        · simp [h]
        · rw [not_not] at h
          simp [h]
      rw [lastNonEmptyAssistantContent, lastNonEmptyAssistantContent, List.reverse_append]
      simp only [List.reverse_singleton, List.singleton_append]
      simp [List.find?_cons, hpred]

theorem loopGo_max (env : LoopEnv)
    (hc : ∀ k, k ≤ env.maxSteps → env.cancelled k = false)
    (hllm : ∀ k, 1 ≤ k → k ≤ env.maxSteps →
      ∃ r, env.llm k = Except.ok r ∧ r.toolCalls ≠ []) :
    ∀ remaining step sess saves usage, step + remaining = env.maxSteps →
      (loopGo env remaining step sess saves usage).finalSession.status = "completed" ∧
      (loopGo env remaining step sess saves usage).result = Except.ok
        (lastNonEmptyAssistantContent
          (loopGo env remaining step sess saves usage).finalSession.messages) ∧
      (loopGo env remaining step sess saves usage).saves.getLast? =
        some (loopGo env remaining step sess saves usage).finalSession := by
  intro remaining
  induction remaining with
  | zero =>
    intro step sess saves usage hstep
    have hcf : env.cancelled step = false := hc step (by omega)
    simp only [loopGo, hcf, Bool.false_eq_true, if_false]
    refine ⟨rfl, ?_, List.getLast?_concat _⟩
    show Except.ok (getLastAssistantContent (setStatus sess "completed")) = _
    rw [getLastAssistantContent, getLastGo_eq_spec]
  | succ r ihr =>
    intro step sess saves usage hstep
    have hcf : env.cancelled step = false := hc step (by omega)
    obtain ⟨resp, hresp, htc⟩ := hllm (step + 1) (by omega) (by omega)
    simp only [loopGo, hcf, Bool.false_eq_true, if_false, hresp]
    rw [if_neg htc]
    exact ihr (step + 1) _ _ _ (by omega)

/-- Claim C5 (amended): for every run in which the step counter reaches
max_steps without the model returning a turn free of tool calls (and without
cancellation or model errors), the loop sets the session status to completed
(not failed), persists the final session as the last save, and returns the
content of the most recent assistant message having non-empty content (the
empty string if there is none). -/
theorem loop_max_steps (env : LoopEnv) (sess : SessionR)
    (hc : ∀ k, k ≤ env.maxSteps → env.cancelled k = false)
    (hllm : ∀ k, 1 ≤ k → k ≤ env.maxSteps →
      ∃ r, env.llm k = Except.ok r ∧ r.toolCalls ≠ []) :
    (loopRun env sess).finalSession.status = "completed" ∧
    (loopRun env sess).result =
      Except.ok (lastNonEmptyAssistantContent (loopRun env sess).finalSession.messages) ∧
    (loopRun env sess).saves.getLast? = some (loopRun env sess).finalSession :=
  loopGo_max env hc hllm env.maxSteps 0 _ [] ⟨0, 0⟩ (by omega)

/-- Claim C5 counterexample to the claim as stated: with max_steps = 1, a
model that always answers with empty content plus one tool call, and a
resumed history whose earlier assistant message has content x, the loop
returns x at the step bound, while the last assistant message of the final
history has empty content - the loop skips assistant messages with empty
content rather than returning the last assistant message's content. -/
theorem loop_last_assistant_counterexample :
    (loopRun
        ⟨1, fun _ => false, fun _ => Except.ok ⟨"", [⟨"c1", "bash", "x"⟩], 0, 0⟩,
          fun _ => ExecOutcome.returned ⟨true, "done", ""⟩⟩
        ⟨"running", [⟨"user", "hi", [], []⟩, ⟨"assistant", "x", [], []⟩]⟩).result =
      Except.ok "x" ∧
    ((loopRun
        ⟨1, fun _ => false, fun _ => Except.ok ⟨"", [⟨"c1", "bash", "x"⟩], 0, 0⟩,
          fun _ => ExecOutcome.returned ⟨true, "done", ""⟩⟩
        ⟨"running", [⟨"user", "hi", [], []⟩, ⟨"assistant", "x", [], []⟩]⟩).finalSession.messages.reverse.find?
        (fun m => m.role == "assistant")).map MessageR.content = some "" := by
  constructor <;> rfl

/-- Claim C5 witness: a two-step budget exhausted by tool-calling turns ends
completed with the final snapshot persisted. -/
theorem loop_max_steps_witness :
    (loopRun
        ⟨2, fun _ => false, fun _ => Except.ok ⟨"t", [⟨"c2", "bash", "y"⟩], 1, 2⟩,
          fun _ => ExecOutcome.returned ⟨false, "", "boom"⟩⟩
        ⟨"running", []⟩).finalSession.status = "completed" ∧
    (loopRun
        ⟨2, fun _ => false, fun _ => Except.ok ⟨"t", [⟨"c2", "bash", "y"⟩], 1, 2⟩,
          fun _ => ExecOutcome.returned ⟨false, "", "boom"⟩⟩
        ⟨"running", []⟩).result =
      Except.ok (lastNonEmptyAssistantContent
        (loopRun
          ⟨2, fun _ => false, fun _ => Except.ok ⟨"t", [⟨"c2", "bash", "y"⟩], 1, 2⟩,
            fun _ => ExecOutcome.returned ⟨false, "", "boom"⟩⟩
          ⟨"running", []⟩).finalSession.messages) ∧
    (loopRun
        ⟨2, fun _ => false, fun _ => Except.ok ⟨"t", [⟨"c2", "bash", "y"⟩], 1, 2⟩,
          fun _ => ExecOutcome.returned ⟨false, "", "boom"⟩⟩
        ⟨"running", []⟩).saves.getLast? =
      some (loopRun
        ⟨2, fun _ => false, fun _ => Except.ok ⟨"t", [⟨"c2", "bash", "y"⟩], 1, 2⟩,
          fun _ => ExecOutcome.returned ⟨false, "", "boom"⟩⟩
        ⟨"running", []⟩).finalSession :=
  loop_max_steps _ _ (fun _ _ => rfl)
    (fun _ _ _ => ⟨⟨"t", [⟨"c2", "bash", "y"⟩], 1, 2⟩, rfl, by decide⟩)

theorem readLoop_range_oblivious (sL eL o1 l1 o2 l2 : Int) :
    ∀ (lines : List (List Char)) (n r : Nat),
      readLoop true sL eL o1 l1 lines n r = readLoop true sL eL o2 l2 lines n r := by
  intro lines
  induction lines with
  | nil => intro n r; rfl
  | cons l rest ih =>
    intro n r
    simp only [readLoop, if_true]
    rw [ih (n + 1) r, ih (n + 1) (r + 1)]

theorem readFilter_tail_nil (s e : Int) :
    ∀ (lines : List (List Char)) (m : Nat), e < ((m : Int) + 1) →
      (lines.enumFrom m).filterMap (fun pr =>
        if s ≤ ((pr.1 : Int) + 1) ∧ ((pr.1 : Int) + 1) ≤ e then
          some (formatReadLine (pr.1 + 1) pr.2)
        else none) = [] := by
  intro lines
  induction lines with
  | nil => intro m _; rfl
  | cons l rest ih =>
    intro m hm
    rw [List.enumFrom_cons, List.filterMap_cons]
    rw [if_neg (by push_cast; omega)]
    exact ih (m + 1) (by push_cast at hm ⊢; omega)

theorem readLoop_range_emit (s e : Int) (hs : 1 ≤ s) (hse : s ≤ e) (o l : Int) :
    ∀ (lines : List (List Char)) (n r : Nat),
      (readLoop true s e o l lines n r).1 =
        (lines.enumFrom n).filterMap (fun pr =>
          if s ≤ ((pr.1 : Int) + 1) ∧ ((pr.1 : Int) + 1) ≤ e then
            some (formatReadLine (pr.1 + 1) pr.2)
          else none) := by
  intro lines
  induction lines with
  | nil => intro n r; rfl
  | cons line rest ih =>
    intro n r
    rw [List.enumFrom_cons, List.filterMap_cons]
    simp only [readLoop, if_true]
    rw [if_neg (by omega : ¬ s ≤ (0 : Int)), if_neg (by omega : ¬ e ≤ (0 : Int))]
    by_cases h1 : ((n + 1 : Nat) : Int) < s
    · rw [if_pos h1, if_neg (by push_cast at h1 ⊢; omega)]
      exact ih (n + 1) r
    · rw [if_neg h1]
      by_cases h2 : e < ((n + 1 : Nat) : Int)
      · rw [if_pos h2, if_neg (by push_cast at h2 ⊢; omega)]
        rw [readFilter_tail_nil s e rest (n + 1) (by push_cast at h2 ⊢; omega)]
      · rw [if_neg h2, if_pos (by push_cast at h1 h2 ⊢; omega)]
        simp only [List.cons.injEq]
        exact ⟨trivial, ih (n + 1) (r + 1)⟩

/-- Claim C8: when start_line and end_line are both supplied (1-based
inclusive, start ≤ end), exactly the lines numbered start..end are emitted and
the parameters take precedence over offset/limit (the result does not depend
on them); an inverted range with both supplied fails, as do directories and
missing files. -/
theorem read_range_spec (p : ReadParams) (content : List Char) :
    (1 ≤ p.startLine → p.startLine ≤ p.endLine →
      (readEmitted p content =
        ((splitLines content).1.enumFrom 0).filterMap (fun pr =>
          if p.startLine ≤ ((pr.1 : Int) + 1) ∧ ((pr.1 : Int) + 1) ≤ p.endLine then
            some (formatReadLine (pr.1 + 1) pr.2)
          else none)) ∧
      ∀ o2 l2 : Int, readExecute p (FsEntry.file content) =
        readExecute ⟨p.path, o2, l2, p.startLine, p.endLine⟩ (FsEntry.file content)) ∧
    (∀ entry, 0 < p.startLine → 0 < p.endLine → p.endLine < p.startLine →
      (readExecute p entry).success = false) ∧
    ((readExecute p FsEntry.directory).success = false) ∧
    ((readExecute p FsEntry.missing).success = false) := by
  refine ⟨?_, ?_, ?_, ?_⟩
  · intro hs hse
    have hrm : (decide (0 < p.startLine) || decide (0 < p.endLine)) = true := by
      simp only [Bool.or_eq_true, decide_eq_true_eq]
      omega
    constructor
    · rw [readEmitted, hrm]
      exact readLoop_range_emit p.startLine p.endLine hs hse _ _ (splitLines content).1 0 0
    · intro o2 l2
      simp only [readExecute, hrm]
      rw [readLoop_range_oblivious p.startLine p.endLine p.offset
        (if p.limit ≤ 0 then 2000 else p.limit) o2 (if l2 ≤ 0 then 2000 else l2)
        (splitLines content).1 0 0]
      simp
  · intro entry h1 h2 h3
    simp only [readExecute]
    by_cases ha : p.path = ""
    · rw [if_pos ha]
    · rw [if_neg ha]
      by_cases hb : p.startLine < 0 ∨ p.endLine < 0
      · rw [if_pos hb]
      · rw [if_neg hb, if_pos ⟨h1, h2, h3⟩]
  · simp only [readExecute]
    split_ifs <;> rfl
  · simp only [readExecute]
    split_ifs <;> rfl

/-- Claim C8 witness: reading lines 2-3 of a four-line file emits exactly
those lines, independent of offset and limit. -/
theorem read_range_spec_witness :
    (readEmitted ⟨"f", 0, 0, 2, 3⟩ ['a', '\n', 'b', '\n', 'c', '\n', 'd', '\n'] =
      ((splitLines ['a', '\n', 'b', '\n', 'c', '\n', 'd', '\n']).1.enumFrom 0).filterMap
        (fun pr =>
          if (2 : Int) ≤ ((pr.1 : Int) + 1) ∧ ((pr.1 : Int) + 1) ≤ (3 : Int) then
            some (formatReadLine (pr.1 + 1) pr.2)
          else none)) ∧
    ∀ o2 l2 : Int,
      readExecute ⟨"f", 0, 0, 2, 3⟩ (FsEntry.file ['a', '\n', 'b', '\n', 'c', '\n', 'd', '\n']) =
        readExecute ⟨"f", o2, l2, 2, 3⟩
          (FsEntry.file ['a', '\n', 'b', '\n', 'c', '\n', 'd', '\n']) :=
  (read_range_spec ⟨"f", 0, 0, 2, 3⟩ ['a', '\n', 'b', '\n', 'c', '\n', 'd', '\n']).1
    (by decide) (by decide)

theorem lexLe_total : ∀ a b : List Char, lexLe a b = true ∨ lexLe b a = true := by
  intro a
  induction a with
  | nil => intro b; left; rfl
  | cons a0 as ih =>
    intro b
    cases b with
    | nil => right; rfl
    | cons b0 bs =>
      rw [lexLe, lexLe]
      by_cases h1 : a0.toNat < b0.toNat
      · left; simp [h1]
      · by_cases h2 : b0.toNat < a0.toNat
        · right; simp [h2]
        · rcases ih bs with h | h
          · left; simp [h1, h2, h]
          · right; simp [h1, h2, h]

theorem lexLe_trans :
    ∀ a b c : List Char, lexLe a b = true → lexLe b c = true → lexLe a c = true := by
  intro a
  induction a with
  | nil => intro b c _ _; rfl
  | cons a0 as ih =>
    intro b c hab hbc
    cases b with
    | nil => simp [lexLe] at hab
    | cons b0 bs =>
      cases c with
      | nil => simp [lexLe] at hbc
      | cons c0 cs =>
        rw [lexLe] at hab hbc ⊢
        split_ifs at hab hbc ⊢ <;>
          first
            | rfl
            | (exfalso; omega)
            | (exact ih bs cs hab hbc)

theorem searchLines_count (matcher : List Char → Bool) (path : String) (mm : Int) :
    ∀ (lines : List (List Char)) (n : Nat) (ms : List GrepMatch) (tot : Nat),
      (searchLines matcher path mm false lines n ms tot).1.length
        ≤ ms.length + lines.countP matcher ∧
      (searchLines matcher path mm false lines n ms tot).2
        = tot + lines.countP matcher := by
  intro lines
  induction lines with
  | nil => intro n ms tot; simp [searchLines]
  | cons l rest ih =>
    intro n ms tot
    by_cases hm : matcher l = true
    · simp only [searchLines, hm, if_true, Bool.false_eq_true, if_false]
      by_cases hap : mm ≤ 0 ∨ (ms.length : Int) < mm
      · rw [if_pos hap]
        obtain ⟨h1, h2⟩ := ih (n + 1) (ms ++ [⟨path, n + 1, trimSpace l⟩]) (tot + 1)
        have hlen : (ms ++ [(⟨path, n + 1, trimSpace l⟩ : GrepMatch)]).length
            = ms.length + 1 := by simp
        constructor
        · rw [List.countP_cons, hm]
          simp only [reduceIte]
          omega
        · rw [h2, List.countP_cons, hm]
          simp only [reduceIte]
          omega
      · rw [if_neg hap]
        obtain ⟨h1, h2⟩ := ih (n + 1) ms (tot + 1)
        constructor
        · rw [List.countP_cons, hm]
          simp only [reduceIte]
          omega
        · rw [h2, List.countP_cons, hm]
          simp only [reduceIte]
          omega
    · have hm' : matcher l = false := Bool.eq_false_iff.mpr hm
      simp only [searchLines, hm', Bool.false_eq_true, if_false]
      obtain ⟨h1, h2⟩ := ih (n + 1) ms tot
      constructor
      · rw [List.countP_cons, hm', if_neg Bool.false_ne_true]
        omega
      · rw [h2, List.countP_cons, hm', if_neg Bool.false_ne_true]
        omega

theorem grepScan_counts (matcher : List Char → Bool) (maxR : Nat) (mpf : Int) :
    ∀ (files : List GrepFile) (ms : List GrepMatch) (cs : List (String × Nat)),
      ms.length + (files.map (countFileMatches matcher)).sum ≤ maxR →
      (grepScan matcher maxR mpf false files ms cs).2 =
        cs ++ files.filterMap (fun g =>
          if countFileMatches matcher g = 0 then none
          else some (g.path, countFileMatches matcher g)) := by
  intro files
  induction files with
  | nil => intro ms cs _; simp [grepScan]
  | cons f rest ih =>
    intro ms cs hbound
    have h1 : (searchFile matcher mpf false f).1.length ≤ countFileMatches matcher f := by
      have := (searchLines_count matcher f.path mpf (splitLines f.content).1 0 [] 0).1
      simpa [searchFile, countFileMatches] using this
    have h2 : (searchFile matcher mpf false f).2 = countFileMatches matcher f := by
      have := (searchLines_count matcher f.path mpf (splitLines f.content).1 0 [] 0).2
      simpa [searchFile, countFileMatches] using this
    have hsum := hbound
    simp only [List.map_cons, List.sum_cons] at hsum
    simp only [grepScan]
    by_cases hc0 : countFileMatches matcher f = 0
    · have hnil : (searchFile matcher mpf false f).1 = [] := by
        apply List.length_eq_zero.mp
        omega
      have hnotpos : ¬ 0 < (searchFile matcher mpf false f).2 := by
        rw [h2, hc0]
        omega
      rw [if_neg hnotpos, hnil, List.append_nil,
        List.filterMap_cons_none (by simp [hc0])]
      by_cases hbr : maxR ≤ ms.length
      · rw [if_pos hbr]
        have hrest0 : (rest.map (countFileMatches matcher)).sum = 0 := by omega
        have hrestnil : rest.filterMap (fun g =>
            if countFileMatches matcher g = 0 then none
            else some (g.path, countFileMatches matcher g)) = [] := by
          apply List.filterMap_eq_nil_iff.mpr
          intro g hg
          have hg0 : countFileMatches matcher g = 0 :=
            List.sum_eq_zero_iff.mp hrest0 _ (List.mem_map_of_mem _ hg)
          simp [hg0]
        rw [hrestnil, List.append_nil]
      · rw [if_neg hbr]
        exact ih ms cs (by omega)
    · have hpos : 0 < (searchFile matcher mpf false f).2 := by
        rw [h2]
        omega
      rw [if_pos hpos, h2,
        List.filterMap_cons_some (by rw [if_neg hc0])]
      by_cases hbr : maxR ≤ (ms ++ (searchFile matcher mpf false f).1).length
      · rw [if_pos hbr]
        rw [List.length_append] at hbr
        have hrest0 : (rest.map (countFileMatches matcher)).sum = 0 := by omega
        have hrestnil : rest.filterMap (fun g =>
            if countFileMatches matcher g = 0 then none
            else some (g.path, countFileMatches matcher g)) = [] := by
          apply List.filterMap_eq_nil_iff.mpr
          intro g hg
          have hg0 : countFileMatches matcher g = 0 :=
            List.sum_eq_zero_iff.mp hrest0 _ (List.mem_map_of_mem _ hg)
          simp [hg0]
        rw [hrestnil]
      · rw [if_neg hbr]
        rw [List.length_append] at hbr
        rw [ih (ms ++ (searchFile matcher mpf false f).1)
          (cs ++ [(f.path, countFileMatches matcher f)])
          (by rw [List.length_append]; omega)]
        simp

/-- Claim C7 (amended): for every grep invocation with mode count where the
total number of matches over the scanned files does not exceed the effective
max_results cap, the output contains exactly one line path: n per scanned
file with n ≥ 1 matches, the lines sorted by file path ascending, and
zero-match files omitted, whatever the max_matches_per_file setting (the
per-file cap limits only the emitted match list, never totalCount).  When
the total exceeds the cap, files scanned after the cap is reached are
omitted even if they match. -/
theorem grep_count_spec (matcher : List Char → Bool) (files : List GrepFile)
    (mrp mpf : Int)
    (_hnodup : (files.map GrepFile.path).Nodup)
    (hbound : (files.map (countFileMatches matcher)).sum ≤ grepEffMaxResults mrp) :
    grepCountLines matcher files mrp mpf =
      (sortByPath (files.filterMap (fun g =>
        if countFileMatches matcher g = 0 then none
        else some (g.path, countFileMatches matcher g)))).map
        (fun pr => pr.1 ++ ": " ++ Nat.repr pr.2) ∧
    (sortByPath (files.filterMap (fun g =>
        if countFileMatches matcher g = 0 then none
        else some (g.path, countFileMatches matcher g)))).Perm
      (files.filterMap (fun g =>
        if countFileMatches matcher g = 0 then none
        else some (g.path, countFileMatches matcher g))) ∧
    List.Pairwise (fun x y : String × Nat => strLe x.1 y.1 = true)
      (sortByPath (files.filterMap (fun g =>
        if countFileMatches matcher g = 0 then none
        else some (g.path, countFileMatches matcher g)))) := by
  refine ⟨?_, ?_, ?_⟩
  · simp only [grepCountLines]
    rw [grepScan_counts matcher (grepEffMaxResults mrp) mpf files [] []
      (by simpa using hbound)]
    rw [List.nil_append]
  · exact List.perm_insertionSort _ _
  · haveI : IsTotal (String × Nat) (fun x y => strLe x.1 y.1 = true) :=
      ⟨fun a b => lexLe_total a.1.data b.1.data⟩
    haveI : IsTrans (String × Nat) (fun x y => strLe x.1 y.1 = true) :=
      ⟨fun a b c hab hbc => lexLe_trans a.1.data b.1.data c.1.data hab hbc⟩
    exact List.sorted_insertionSort _ _

/-- Claim C7 counterexample to the claim as stated: two files each with one
matching line and max_results = 1 - after the first file the match cap is
reached and the scan stops, so the second file's count line is missing even
though it has one match. -/
theorem grep_count_cap_counterexample :
    grepCountLines (fun l => !l.isEmpty) [⟨"a", ['x']⟩, ⟨"b", ['x']⟩] 1 0 = ["a: 1"] ∧
    countFileMatches (fun l => !l.isEmpty) ⟨"b", ['x']⟩ = 1 := by
  constructor <;> rfl

/-- Claim C7 witness: three files with 1, 2 and 0 matches under the default
result cap and a per-file cap of 1 (which limits the emitted match list of
the two-match file but not its reported count) produce one sorted line per
matching file. -/
theorem grep_count_spec_witness :
    grepCountLines (fun l => !l.isEmpty)
        [⟨"b", ['x']⟩, ⟨"a", ['y', '\n', 'z']⟩, ⟨"z", []⟩] 0 1 =
      (sortByPath ([⟨"b", ['x']⟩, ⟨"a", ['y', '\n', 'z']⟩,
          (⟨"z", []⟩ : GrepFile)].filterMap (fun g =>
        if countFileMatches (fun l => !l.isEmpty) g = 0 then none
        else some (g.path, countFileMatches (fun l => !l.isEmpty) g)))).map
        (fun pr => pr.1 ++ ": " ++ Nat.repr pr.2) :=
  (grep_count_spec (fun l => !l.isEmpty)
    [⟨"b", ['x']⟩, ⟨"a", ['y', '\n', 'z']⟩, ⟨"z", []⟩] 0 1
    (by decide) (by decide)).1

theorem ctLt_trans {a b c : CronTime} (hab : ctLt a b) (hbc : ctLt b c) : ctLt a c := by
  simp only [ctLt] at hab hbc ⊢
  omega

theorem ctLt_addMinute (t : CronTime) : ctLt t (addMinute t) := by
  rw [addMinute]
  split_ifs <;> simp [ctLt]

theorem ctLt_addMinute_truncMin (t : CronTime) : ctLt t (addMinute (truncMin t)) := by
  rw [truncMin, addMinute]
  split_ifs <;> simp [ctLt]

theorem cronSearch_ge (e : CronExpr) :
    ∀ (fuel : Nat) (u v : CronTime), cronSearch e fuel u = some v → u = v ∨ ctLt u v := by
  intro fuel
  induction fuel with
  | zero => intro u v h; simp [cronSearch] at h
  | succ fuel ih =>
    intro u v h
    rw [cronSearch] at h
    by_cases hm : cronMatches e u = true
    · rw [if_pos hm] at h
      exact Or.inl (Option.some.inj h)
    · rw [if_neg hm] at h
      rcases ih (addMinute u) v h with heq | hlt
      · exact Or.inr (heq ▸ ctLt_addMinute u)
      · exact Or.inr (ctLt_trans (ctLt_addMinute u) hlt)

/-- Claim C6: whenever cron_next returns a firing it is strictly greater than
the queried time, hence applying cron_next twice is strictly increasing; and
on scenario S3, cron_next of the expression star-slash-15 four stars at
2025-01-01T10:07:30Z returns 2025-01-01T10:15:00Z. -/
theorem cronNext_strictly_greater (e : CronExpr) (t u : CronTime) (fuel : Nat)
    (h : cronNext e fuel t = some u) :
    ctLt t u ∧ (∀ (fuel2 : Nat) (v : CronTime), cronNext e fuel2 u = some v → ctLt u v) ∧
    cronNext every15 20 ⟨2025, 1, 1, 10, 7, 30⟩ = some ⟨2025, 1, 1, 10, 15, 0⟩ := by
  refine ⟨?_, ?_, by rfl⟩
  · rcases cronSearch_ge e fuel (addMinute (truncMin t)) u h with heq | hlt
    · exact heq ▸ ctLt_addMinute_truncMin t
    · exact ctLt_trans (ctLt_addMinute_truncMin t) hlt
  · intro fuel2 v hv
    rcases cronSearch_ge e fuel2 (addMinute (truncMin u)) v hv with heq | hlt
    · exact heq ▸ ctLt_addMinute_truncMin u
    · exact ctLt_trans (ctLt_addMinute_truncMin u) hlt

/-- Claim C6 witness: the S3 instance itself - the 10:15 firing is strictly
after 10:07:30. -/
theorem cronNext_strictly_greater_witness :
    ctLt ⟨2025, 1, 1, 10, 7, 30⟩ ⟨2025, 1, 1, 10, 15, 0⟩ ∧
    cronNext every15 20 ⟨2025, 1, 1, 10, 7, 30⟩ = some ⟨2025, 1, 1, 10, 15, 0⟩ :=
  ⟨(cronNext_strictly_greater every15 ⟨2025, 1, 1, 10, 7, 30⟩ ⟨2025, 1, 1, 10, 15, 0⟩ 20
      (by rfl)).1,
    (cronNext_strictly_greater every15 ⟨2025, 1, 1, 10, 7, 30⟩ ⟨2025, 1, 1, 10, 15, 0⟩ 20
      (by rfl)).2.2⟩
